import Mathlib

/-!
Verification of the geecache-style distributed cache repository.

The Go sources are shallowly embedded below:
* `LruCache` and its operations embed `geecache/lru/lru.go`.
* `ConsMap` and its operations embed the consistent-hash package (`consistenthash`).
* `HTTPPool`, `httpGetter` and the path handling embed the HTTP peer layer.
* `cache`, `GeeGroup` and `groupGet` embed the cache shard and the `Group` orchestrator.
* `SFState` models the call deduplicator (`singleflight`), whose source is not in
  the repository snapshot; it is modelled from the specification.

Go byte strings are modelled as `String` (lengths taken as UTF-8 byte counts, which
agrees with Go's `len` on strings); `[]byte` values as `List Nat`; `int64` as `Int`.
-/

/-- Go `len(s)` on a string counts UTF-8 bytes. -/
def strBytes (s : String) : Nat := s.utf8ByteSize

/-! ## LRU eviction cache (`geecache/lru/lru.go`)

The Go `Cache` keeps a doubly linked list `ll` (front = most recently used,
back = least recently used) and a map from key to list element; the map's keys
always coincide with the list's keys, so the pair is modelled as a single
association list ordered by recency, head = front.  The `OnEvicted` callback is
used only for observability (and is `nil` in every use inside this repository),
so eviction is modelled as plain removal. -/

structure LruCache (V : Type) where
  maxBytes : Int
  nbytes : Int
  ll : List (String × V)
deriving Repr, DecidableEq

/-- `lru.New`: empty cache with the given byte budget. -/
def lruNew (V : Type) (maxBytes : Int) : LruCache V := ⟨maxBytes, 0, []⟩

/-- Lookup in the key → element map: first (and, on reachable states, only)
occurrence of the key in the recency list. -/
def findVal {V : Type} : List (String × V) → String → Option V
  | [], _ => none
  | (k, v) :: rest, key => if k = key then some v else findVal rest key

/-- Remove the first occurrence of a key from the recency list (no occurrence:
the list is returned unchanged). -/
def removeFirst {V : Type} : List (String × V) → String → List (String × V)
  | [], _ => []
  | (k, v) :: rest, key => if k = key then rest else (k, v) :: removeFirst rest key

/-- `Cache.Get`: on a hit, `MoveToFront` promotes the entry to the front and the
value is returned; on a miss the state is untouched. -/
def lruGet {V : Type} (c : LruCache V) (key : String) : Option V × LruCache V :=
  match findVal c.ll key with
  | some v => (some v, { c with ll := (key, v) :: removeFirst c.ll key })
  | none => (none, c)

/-- `Cache.RemoveOldest`: drop the back (least recently used) entry, if any, and
release its tracked bytes. -/
def removeOldest {V : Type} (vlen : V → Nat) (c : LruCache V) : LruCache V :=
  match c.ll.getLast? with
  | none => c
  | some (k, v) =>
    { c with ll := c.ll.dropLast
             nbytes := c.nbytes - ((strBytes k : Int) + (vlen v : Int)) }

/-- The body of `Cache.Add` before the eviction loop: an existing key is moved to
the front and its value replaced (tracked size adjusted by the delta); a new key
is pushed at the front and its full size added. -/
def lruAddPre {V : Type} (vlen : V → Nat) (c : LruCache V) (key : String) (v : V) :
    LruCache V :=
  match findVal c.ll key with
  | some old =>
    { c with ll := (key, v) :: removeFirst c.ll key
             nbytes := c.nbytes + (vlen v : Int) - (vlen old : Int) }
  | none =>
    { c with ll := (key, v) :: c.ll
             nbytes := c.nbytes + ((strBytes key : Int) + (vlen v : Int)) }

/-- The eviction loop of `Cache.Add`: `for c.maxBytes != 0 && c.maxBytes < c.nbytes
{ c.RemoveOldest() }`.  Each productive iteration shortens the list, so fuel equal
to the list length runs the loop to completion; with a negative budget the Go loop
never terminates once the list is empty, which the fuel cuts off. -/
def evictLoop {V : Type} (vlen : V → Nat) : Nat → LruCache V → LruCache V
  | 0, c => c
  | fuel + 1, c =>
    if c.maxBytes ≠ 0 ∧ c.maxBytes < c.nbytes then
      evictLoop vlen fuel (removeOldest vlen c)
    else c

/-- `Cache.Add`: insert or replace, then evict while over budget. -/
def lruAdd {V : Type} (vlen : V → Nat) (c : LruCache V) (key : String) (v : V) :
    LruCache V :=
  let c' := lruAddPre vlen c key v
  evictLoop vlen c'.ll.length c'

/-- `Cache.Len`: number of entries. -/
def lruLen {V : Type} (c : LruCache V) : Nat := c.ll.length

/-- Size in bytes of one entry: key length plus value length. -/
def entrySize {V : Type} (vlen : V → Nat) (e : String × V) : Nat :=
  strBytes e.1 + vlen e.2

/-- Sum over all entries of key length plus value length — the quantity the
`nbytes` field is meant to track. -/
def listSize {V : Type} (vlen : V → Nat) (l : List (String × V)) : Nat :=
  (l.map (entrySize vlen)).sum

/-- One operation of the eviction cache's public interface. -/
inductive LruOp (V : Type) where
  | add (key : String) (v : V)
  | get (key : String)
  | removeOldest
deriving Repr

/-- Apply a single operation. -/
def applyOp {V : Type} (vlen : V → Nat) (c : LruCache V) : LruOp V → LruCache V
  | .add key v => lruAdd vlen c key v
  | .get key => (lruGet c key).2
  | .removeOldest => removeOldest vlen c

/-- Apply a sequence of operations in order. -/
def applyOps {V : Type} (vlen : V → Nat) (ops : List (LruOp V)) (c : LruCache V) :
    LruCache V :=
  ops.foldl (applyOp vlen) c

/-! ### Size-tracking invariant of the eviction cache -/

/-- The `nbytes` field tracks the sum over all entries of key length plus value
length. -/
def lruInv {V : Type} (vlen : V → Nat) (c : LruCache V) : Prop :=
  c.nbytes = (listSize vlen c.ll : Int)

theorem listSize_cons {V : Type} (vlen : V → Nat) (e : String × V)
    (l : List (String × V)) :
    listSize vlen (e :: l) = entrySize vlen e + listSize vlen l := by
  simp [listSize]

theorem listSize_append {V : Type} (vlen : V → Nat) (l₁ l₂ : List (String × V)) :
    listSize vlen (l₁ ++ l₂) = listSize vlen l₁ + listSize vlen l₂ := by
  simp [listSize]

theorem findVal_listSize {V : Type} (vlen : V → Nat) {l : List (String × V)}
    {key : String} {v : V} (h : findVal l key = some v) :
    listSize vlen l = entrySize vlen (key, v) + listSize vlen (removeFirst l key) := by
  induction l with
  | nil => simp [findVal] at h
  | cons e rest ih =>
    obtain ⟨k, w⟩ := e
    by_cases hk : k = key
    · subst hk
      simp [findVal] at h
      subst h
      simp [removeFirst, listSize_cons]
    · simp [findVal, hk] at h
      simp [removeFirst, hk, listSize_cons, ih h]
      omega

theorem findVal_perm {V : Type} {l : List (String × V)} {key : String} {v : V}
    (h : findVal l key = some v) : ((key, v) :: removeFirst l key).Perm l := by
  induction l with
  | nil => simp [findVal] at h
  | cons e rest ih =>
    obtain ⟨k, w⟩ := e
    by_cases hk : k = key
    · subst hk
      simp [findVal] at h
      subst h
      simp [removeFirst]
    · simp [findVal, hk] at h
      simp only [removeFirst, if_neg hk]
      exact (List.Perm.swap (k, w) (key, v) (removeFirst rest key)).trans
        ((ih h).cons (k, w))

theorem removeFirst_of_findVal_none {V : Type} {l : List (String × V)} {key : String}
    (h : findVal l key = none) : removeFirst l key = l := by
  induction l with
  | nil => simp [removeFirst]
  | cons e rest ih =>
    obtain ⟨k, w⟩ := e
    by_cases hk : k = key
    · simp [findVal, hk] at h
    · simp [findVal, hk] at h
      simp [removeFirst, hk, ih h]

theorem removeOldest_ll {V : Type} (vlen : V → Nat) (c : LruCache V) :
    (removeOldest vlen c).ll = c.ll.dropLast := by
  rcases List.eq_nil_or_concat c.ll with hl | ⟨l', e, hl⟩
  · simp [removeOldest, hl]
  · obtain ⟨k, v⟩ := e
    simp [removeOldest, hl]

theorem removeOldest_maxBytes {V : Type} (vlen : V → Nat) (c : LruCache V) :
    (removeOldest vlen c).maxBytes = c.maxBytes := by
  rcases List.eq_nil_or_concat c.ll with hl | ⟨l', e, hl⟩
  · simp [removeOldest, hl]
  · obtain ⟨k, v⟩ := e
    simp [removeOldest, hl]

theorem removeOldest_inv {V : Type} (vlen : V → Nat) {c : LruCache V}
    (h : lruInv vlen c) : lruInv vlen (removeOldest vlen c) := by
  rcases List.eq_nil_or_concat c.ll with hl | ⟨l', e, hl⟩
  · simpa [removeOldest, hl] using h
  · obtain ⟨k, v⟩ := e
    rw [List.concat_eq_append] at hl
    simp only [lruInv, removeOldest, hl, List.getLast?_concat, List.dropLast_concat] at h ⊢
    rw [listSize_append] at h
    have h2 : listSize vlen [(k, v)] = strBytes k + vlen v := by
      simp [listSize, entrySize]
    rw [h2] at h
    push_cast at h
    omega

theorem removeOldest_nbytes_le {V : Type} (vlen : V → Nat) {c : LruCache V}
    (_h : lruInv vlen c) : (removeOldest vlen c).nbytes ≤ c.nbytes := by
  rcases List.eq_nil_or_concat c.ll with hl | ⟨l', e, hl⟩
  · simp [removeOldest, hl]
  · obtain ⟨k, v⟩ := e
    rw [List.concat_eq_append] at hl
    simp only [removeOldest, hl, List.getLast?_concat]
    have : (0 : Int) ≤ (strBytes k : Int) + (vlen v : Int) := by positivity
    omega

theorem evictLoop_inv {V : Type} (vlen : V → Nat) :
    ∀ (fuel : Nat) (c : LruCache V), lruInv vlen c →
      lruInv vlen (evictLoop vlen fuel c) ∧
      (evictLoop vlen fuel c).maxBytes = c.maxBytes := by
  intro fuel
  induction fuel with
  | zero => intro c h; exact ⟨h, rfl⟩
  | succ n ih =>
    intro c h
    by_cases hc : c.maxBytes ≠ 0 ∧ c.maxBytes < c.nbytes
    · simp only [evictLoop, if_pos hc]
      obtain ⟨h1, h2⟩ := ih (removeOldest vlen c) (removeOldest_inv vlen h)
      exact ⟨h1, h2.trans (removeOldest_maxBytes vlen c)⟩
    · simp only [evictLoop, if_neg hc]
      exact ⟨h, trivial⟩

theorem evictLoop_bound {V : Type} (vlen : V → Nat) :
    ∀ (fuel : Nat) (c : LruCache V), lruInv vlen c → 0 < c.maxBytes →
      c.ll.length ≤ fuel → (evictLoop vlen fuel c).nbytes ≤ c.maxBytes := by
  intro fuel
  induction fuel with
  | zero =>
    intro c h hpos hlen
    have hnil : c.ll = [] := List.length_eq_zero.mp (Nat.le_zero.mp hlen)
    simp only [evictLoop]
    rw [lruInv, hnil] at h
    simp [listSize] at h
    omega
  | succ n ih =>
    intro c h hpos hlen
    by_cases hc : c.maxBytes ≠ 0 ∧ c.maxBytes < c.nbytes
    · simp only [evictLoop, if_pos hc]
      have hinv := removeOldest_inv vlen h
      have hmax := removeOldest_maxBytes vlen (c := c)
      have hlen' : (removeOldest vlen c).ll.length ≤ n := by
        rw [removeOldest_ll]
        simp only [List.length_dropLast]
        omega
      have := ih (removeOldest vlen c) hinv (by rw [hmax]; exact hpos) hlen'
      rwa [hmax] at this
    · simp only [evictLoop, if_neg hc]
      omega

theorem listSize_perm {V : Type} (vlen : V → Nat) {l₁ l₂ : List (String × V)}
    (h : l₁.Perm l₂) : listSize vlen l₁ = listSize vlen l₂ :=
  (h.map (entrySize vlen)).sum_eq

theorem lruGet_inv {V : Type} (vlen : V → Nat) {c : LruCache V} (key : String)
    (h : lruInv vlen c) : lruInv vlen (lruGet c key).2 := by
  rcases hf : findVal c.ll key with _ | v
  · simp [lruGet, hf, h]
  · simp only [lruInv, lruGet, hf]
    rw [listSize_perm vlen (findVal_perm hf)]
    exact h

theorem lruAddPre_inv {V : Type} (vlen : V → Nat) {c : LruCache V}
    (key : String) (v : V) (h : lruInv vlen c) :
    lruInv vlen (lruAddPre vlen c key v) := by
  rcases hf : findVal c.ll key with _ | old
  · simp only [lruInv, lruAddPre, hf, listSize_cons, entrySize] at h ⊢
    push_cast
    omega
  · have hs := findVal_listSize vlen hf
    simp only [lruInv, lruAddPre, hf, listSize_cons, entrySize] at h hs ⊢
    rw [hs] at h
    push_cast at h ⊢
    omega

theorem lruAddPre_maxBytes {V : Type} (vlen : V → Nat) (c : LruCache V)
    (key : String) (v : V) : (lruAddPre vlen c key v).maxBytes = c.maxBytes := by
  rcases hf : findVal c.ll key with _ | old <;> simp [lruAddPre, hf]

theorem applyOp_preserves {V : Type} (vlen : V → Nat) {c : LruCache V}
    (op : LruOp V) (hpos : 0 < c.maxBytes) (hinv : lruInv vlen c)
    (hb : c.nbytes ≤ c.maxBytes) :
    lruInv vlen (applyOp vlen c op) ∧ (applyOp vlen c op).maxBytes = c.maxBytes ∧
      (applyOp vlen c op).nbytes ≤ c.maxBytes := by
  cases op with
  | add key v =>
    have hinv' := lruAddPre_inv vlen key v hinv
    have hmax' := lruAddPre_maxBytes vlen c key v
    have he := evictLoop_inv vlen (lruAddPre vlen c key v).ll.length
      (lruAddPre vlen c key v) hinv'
    have hbd := evictLoop_bound vlen (lruAddPre vlen c key v).ll.length
      (lruAddPre vlen c key v) hinv' (by rw [hmax']; exact hpos) (le_refl _)
    simp only [applyOp, lruAdd]
    exact ⟨he.1, he.2.trans hmax', by rw [← hmax']; exact hbd⟩
  | get key =>
    have h1 := lruGet_inv vlen key hinv
    have h2 : (lruGet c key).2.nbytes = c.nbytes ∧
        (lruGet c key).2.maxBytes = c.maxBytes := by
      rcases hf : findVal c.ll key with _ | v <;> simp [lruGet, hf]
    simp only [applyOp]
    exact ⟨h1, h2.2, by rw [h2.1]; exact hb⟩
  | removeOldest =>
    exact ⟨removeOldest_inv vlen hinv, removeOldest_maxBytes vlen c,
      (removeOldest_nbytes_le vlen hinv).trans hb⟩

theorem applyOps_preserves {V : Type} (vlen : V → Nat) (ops : List (LruOp V)) :
    ∀ (c : LruCache V), 0 < c.maxBytes → lruInv vlen c → c.nbytes ≤ c.maxBytes →
      lruInv vlen (applyOps vlen ops c) ∧
      (applyOps vlen ops c).maxBytes = c.maxBytes ∧
      (applyOps vlen ops c).nbytes ≤ c.maxBytes := by
  induction ops with
  | nil => intro c _ hinv hb; exact ⟨hinv, rfl, hb⟩
  | cons op rest ih =>
    intro c hpos hinv hb
    have h1 := applyOp_preserves vlen op hpos hinv hb
    have h2 := ih (applyOp vlen c op) (by rw [h1.2.1]; exact hpos) h1.1
      (by rw [h1.2.1]; exact h1.2.2)
    simp only [applyOps, List.foldl_cons] at h2 ⊢
    exact ⟨h2.1, h2.2.1.trans h1.2.1,
      by rw [← h1.2.1]; exact h2.2.2⟩

/-- Claim C2: for every sequence of `Add`, `Get` and `RemoveOldest` operations on
an eviction cache constructed with a positive maximum byte budget, the tracked
size — the sum over all entries of key length plus value length — is at most the
configured maximum once the sequence has completed (hence after every completed
operation, since every prefix is itself such a sequence).  A zero budget disables
the bound in the source; with a negative (nonzero) budget the source's eviction
loop never terminates once the cache is drained, so no operation completes. -/
theorem lru_size_bounded {V : Type} (vlen : V → Nat) (maxB : Int)
    (ops : List (LruOp V)) (hpos : 0 < maxB) :
    (listSize vlen (applyOps vlen ops (lruNew V maxB)).ll : Int) ≤ maxB := by
  have h := applyOps_preserves vlen ops (lruNew V maxB)
    (by simpa [lruNew] using hpos)
    (by simp [lruInv, lruNew, listSize])
    (by simp only [lruNew]; omega)
  have hmax : (lruNew V maxB).maxBytes = maxB := rfl
  rw [← h.1, ← hmax]
  exact h.2.2

/-- Witness for C2: a concrete run against a budget of 3 bytes. -/
theorem lru_size_bounded_w :
    (0 : Int) < 3 ∧
      (listSize strBytes
        (applyOps strBytes [LruOp.add "A" "aa", LruOp.get "A", LruOp.add "B" "bb"]
          (lruNew String 3)).ll : Int) ≤ 3 :=
  ⟨by decide,
    lru_size_bounded strBytes 3 [LruOp.add "A" "aa", LruOp.get "A", LruOp.add "B" "bb"]
      (by decide)⟩

/-- Claim C10: `Get` changes only the recency order: the resulting entry list is a
permutation of the old one (so no stored key or value changes), and the entry
count, the tracked byte size and the configured budget are all unchanged, on hits
and misses alike. -/
theorem lru_get_state_frame {V : Type} (vlen : V → Nat) (c : LruCache V)
    (key : String) :
    ((lruGet c key).2).ll.Perm c.ll ∧
      (lruGet c key).2.nbytes = c.nbytes ∧
      (lruGet c key).2.maxBytes = c.maxBytes ∧
      lruLen (lruGet c key).2 = lruLen c ∧
      listSize vlen (lruGet c key).2.ll = listSize vlen c.ll := by
  rcases hf : findVal c.ll key with _ | v
  · simp [lruGet, hf, lruLen, List.Perm.refl]
  · have hp := findVal_perm hf
    simp only [lruGet, hf, lruLen]
    exact ⟨hp, by trivial, by trivial, hp.length_eq, listSize_perm vlen hp⟩

/-! ### Eviction order -/

/-- Claim C7: the entry evicted first is the least recently used one — eviction
always removes the back of the recency list, while `Get` hits and `Add` both
promote the touched entry to the front; in particular, on a budget worth two
entries, add A, add B, get A, add C evicts B and leaves exactly A and C. -/
theorem lru_evicts_least_recent :
    (∀ (V : Type) (vlen : V → Nat) (maxB nb : Int) (l : List (String × V))
        (k : String) (v : V),
        removeOldest vlen ⟨maxB, nb, l ++ [(k, v)]⟩ =
          ⟨maxB, nb - ((strBytes k : Int) + (vlen v : Int)), l⟩) ∧
    (∀ (V : Type) (c : LruCache V) (key : String) (v : V),
        findVal c.ll key = some v →
          ((lruGet c key).2).ll = (key, v) :: removeFirst c.ll key) ∧
    (∀ (V : Type) (vlen : V → Nat) (c : LruCache V) (key : String) (v : V),
        (lruAddPre vlen c key v).ll = (key, v) :: removeFirst c.ll key) ∧
    (let final := applyOps strBytes
        [LruOp.add "A" "a", LruOp.add "B" "b", LruOp.get "A", LruOp.add "C" "c"]
        (lruNew String 4)
     findVal final.ll "A" = some "a" ∧ findVal final.ll "C" = some "c" ∧
       findVal final.ll "B" = none ∧ lruLen final = 2) := by
  refine ⟨?_, ?_, ?_, ?_⟩
  · intro V vlen maxB nb l k v
    simp [removeOldest, List.getLast?_concat, List.dropLast_concat]
  · intro V c key v h
    simp [lruGet, h]
  · intro V vlen c key v
    rcases hf : findVal c.ll key with _ | old
    · simp [lruAddPre, hf, removeFirst_of_findVal_none hf]
    · simp [lruAddPre, hf]
  · decide

/-- Witness for C7's conditional part: a `Get` hit on a concrete one-entry cache
promotes the entry to the front. -/
theorem lru_evicts_least_recent_w :
    ((lruGet (⟨4, 2, [("A", "a")]⟩ : LruCache String) "A").2).ll =
      ("A", "a") :: removeFirst [("A", "a")] "A" :=
  lru_evicts_least_recent.2.1 String ⟨4, 2, [("A", "a")]⟩ "A" "a" (by decide)

/-! ## Call deduplicator (`singleflight`)

Modelled from the spec: the `singleflight` package itself is not among the
repository's source files — only its caller `Group.load` is — so `Do`'s behaviour
is modelled from specification §4.3: per key at most one in-flight call record
exists; a caller finding a record joins it as a waiter and does not run the
producer; a caller finding none registers itself as owner and runs the producer;
completion delivers the owner's single result to the owner and every waiter and
deregisters the key.  Callers are identified by numeric ids; the blocking of
waiters is abstracted into the completion step delivering to all of them. -/

structure SFState where
  inflight : List (String × List Nat)
deriving Repr, DecidableEq

/-- Modelled from the spec: append a newly arrived waiter to the in-flight record
of a key. -/
def sfAppendWaiter : List (String × List Nat) → String → Nat → List (String × List Nat)
  | [], _, _ => []
  | (k, cs) :: rest, key, cid =>
    if k = key then (k, cs ++ [cid]) :: rest
    else (k, cs) :: sfAppendWaiter rest key cid

/-- Modelled from the spec: a caller entering `Do(key, producer)`.  Returns the new
state and whether this caller became the owner (and hence is the one that invokes
the producer). -/
def sfArrive (s : SFState) (key : String) (cid : Nat) : SFState × Bool :=
  match findVal s.inflight key with
  | some _ => (⟨sfAppendWaiter s.inflight key cid⟩, false)
  | none => (⟨(key, [cid]) :: s.inflight⟩, true)

/-- Modelled from the spec: the owner's producer call completes with result `r`;
the one result is delivered to the owner and every waiter, and the key is
deregistered. -/
def sfComplete {α : Type} (s : SFState) (key : String) (r : α) :
    SFState × List (Nat × α) :=
  match findVal s.inflight key with
  | some callers => (⟨removeFirst s.inflight key⟩, callers.map (fun c => (c, r)))
  | none => (s, [])

/-- A batch of arrivals for one key, returning the final state and how many of the
arrivals became the owner. -/
def sfArrivals (key : String) : SFState → List Nat → SFState × Nat
  | s, [] => (s, 0)
  | s, cid :: rest =>
    match sfArrive s key cid with
    | (s', owner) =>
      let p := sfArrivals key s' rest
      (p.1, (if owner then 1 else 0) + p.2)

theorem sfArrivals_joins (key : String) :
    ∀ (rest acc : List Nat),
      sfArrivals key ⟨[(key, acc)]⟩ rest = (⟨[(key, acc ++ rest)]⟩, 0) := by
  intro rest
  induction rest with
  | nil => intro acc; simp [sfArrivals]
  | cons cid rest ih =>
    intro acc
    have harr : sfArrive ⟨[(key, acc)]⟩ key cid = (⟨[(key, acc ++ [cid])]⟩, false) := by
      simp [sfArrive, findVal, sfAppendWaiter]
    simp only [sfArrivals, harr, ih (acc ++ [cid])]
    simp

/-- Claim C3 (spec-modelled): when N callers enter `Do` for the same key while a
call is in flight, exactly one of them (the first) runs the producer; on
completion every one of the N callers is delivered the one result `r` (identical
value for all); and the key is deregistered afterwards, so a fresh caller becomes
a new owner. -/
theorem sf_do_once {α : Type} (key : String) (cids : List Nat) (r : α)
    (h : cids ≠ []) :
    (sfArrivals key ⟨[]⟩ cids).2 = 1 ∧
      sfComplete (sfArrivals key ⟨[]⟩ cids).1 key r =
        (⟨[]⟩, cids.map (fun c => (c, r))) ∧
      (sfArrive (sfComplete (sfArrivals key ⟨[]⟩ cids).1 key r).1 key 0).2 = true := by
  obtain ⟨c, rest, rfl⟩ : ∃ c rest, cids = c :: rest := by
    cases cids with
    | nil => exact absurd rfl h
    | cons c rest => exact ⟨c, rest, rfl⟩
  have harr : sfArrive ⟨[]⟩ key c = (⟨[(key, [c])]⟩, true) := by
    simp [sfArrive, findVal]
  simp only [sfArrivals, harr, sfArrivals_joins key rest [c]]
  refine ⟨rfl, ?_, ?_⟩
  · simp [sfComplete, findVal, removeFirst]
  · simp [sfComplete, findVal, removeFirst, sfArrive]

/-- Witness for C3: three concrete callers for key `k`; the producer runs once,
all three receive the result 42, and the key is deregistered afterwards. -/
theorem sf_do_once_w :
    (sfArrivals "k" ⟨[]⟩ [1, 2, 3]).2 = 1 ∧
      sfComplete (sfArrivals "k" ⟨[]⟩ [1, 2, 3]).1 "k" (42 : Nat) =
        (⟨[]⟩, [(1, 42), (2, 42), (3, 42)]) ∧
      (sfArrive (sfComplete (sfArrivals "k" ⟨[]⟩ [1, 2, 3]).1 "k" (42 : Nat)).1
        "k" 0).2 = true :=
  sf_do_once "k" [1, 2, 3] 42 (by decide)

/-! ## Consistent-hash ring (`consistenthash` package)

The Go `Map` holds a pluggable hash, the virtual-node replica count, the sorted
slice of virtual-node hashes and the virtual-node → real-peer map.  Hash values
are `uint32` converted to `int`, hence nonnegative, modelled as `Nat`; the
`hashMap` is modelled as an association list whose assignment replaces an
existing binding, like a Go map write.  The `nil`-hash default (`crc32`) lives in
the standard library, so the model always takes the hash explicitly. -/

structure ConsMap where
  hash : String → Nat
  replicas : Nat
  keys : List Nat
  hashMap : List (Nat × String)

/-- `consistenthash.New` (with an explicit hash function). -/
def consNew (replicas : Nat) (hash : String → Nat) : ConsMap :=
  ⟨hash, replicas, [], []⟩

/-- A Go map assignment `m.hashMap[hash] = key`: replace an existing binding or
append a new one. -/
def hashInsert : List (Nat × String) → Nat → String → List (Nat × String)
  | [], h, peer => [(h, peer)]
  | (h', p') :: rest, h, peer =>
    if h' = h then (h, peer) :: rest else (h', p') :: hashInsert rest h peer

/-- A Go map read `m.hashMap[h]`: the bound value, or the zero value `""` when
the key is absent. -/
def hashLookup : List (Nat × String) → Nat → String
  | [], _ => ""
  | (h', p) :: rest, h => if h' = h then p else hashLookup rest h

/-- The inner loop of `Map.Add` for one real peer: one virtual node per replica
index `i`, hashed over `strconv.Itoa(i) + key`. -/
def addOne (m : ConsMap) (key : String) : ConsMap :=
  (List.range m.replicas).foldl
    (fun m' i =>
      let h := m'.hash (toString i ++ key)
      { m' with keys := m'.keys ++ [h], hashMap := hashInsert m'.hashMap h key })
    m

/-- `Map.Add`: register all peers' virtual nodes, then sort the ring.  Go uses
`sort.Ints`; any sorting algorithm yields the same list, since sorted
permutations of the same multiset are equal. -/
def consAdd (m : ConsMap) (ks : List String) : ConsMap :=
  let m' := ks.foldl addOne m
  { m' with keys := m'.keys.insertionSort (· ≤ ·) }

/-- Go's `sort.Search(n, f)` (binary search for the least index in `[0, n]` at
which the monotone predicate `f` holds), with fuel `j - i ≥` the interval width;
`sortSearch` below supplies enough fuel for full execution. -/
def sortSearchAux (f : Nat → Bool) : Nat → Nat → Nat → Nat
  | 0, i, _ => i
  | fuel + 1, i, j =>
    if i < j then
      let mid := (i + j) / 2
      if f mid then sortSearchAux f fuel i mid else sortSearchAux f fuel (mid + 1) j
    else i

/-- `sort.Search(n, f)`. -/
def sortSearch (n : Nat) (f : Nat → Bool) : Nat := sortSearchAux f n 0 n

/-- `Map.Get`: empty ring yields `""`; otherwise binary-search the first
virtual-node hash ≥ hash(key), wrap by taking the index modulo the ring size, and
return the owning real peer. -/
def consGet (m : ConsMap) (key : String) : String :=
  if m.keys.length = 0 then ""
  else
    let h := m.hash key
    let idx := sortSearch m.keys.length (fun i => decide (h ≤ m.keys.getD i 0))
    hashLookup m.hashMap (m.keys.getD (idx % m.keys.length) 0)

/-- The specification's owner-selection rule, stated independently of the binary
search: the first element of the sorted virtual-node hash sequence that is ≥ the
key's hash, wrapping around to the first element when no such element exists. -/
def specSelect (keys : List Nat) (h : Nat) : Nat :=
  match keys.filter (fun x => h ≤ x) with
  | [] => keys.headD 0
  | x :: _ => x

theorem sortSearchAux_spec (f : Nat → Bool) :
    ∀ (fuel i j : Nat), j - i ≤ fuel → i ≤ j →
      (∀ a b, a ≤ b → b < j → f a = true → f b = true) →
      i ≤ sortSearchAux f fuel i j ∧ sortSearchAux f fuel i j ≤ j ∧
        (∀ k, i ≤ k → k < sortSearchAux f fuel i j → f k = false) ∧
        (sortSearchAux f fuel i j < j → f (sortSearchAux f fuel i j) = true) := by
  intro fuel
  induction fuel with
  | zero =>
    intro i j hfuel hij _
    have : i = j := by omega
    subst this
    simp only [sortSearchAux]
    exact ⟨le_refl i, le_refl i, fun k hk1 hk2 => by omega, fun h => by omega⟩
  | succ n ih =>
    intro i j hfuel hij hmono
    by_cases hlt : i < j
    · have hmid1 : i ≤ (i + j) / 2 := by omega
      have hmid2 : (i + j) / 2 < j := by omega
      by_cases hf : f ((i + j) / 2) = true
      · have := ih i ((i + j) / 2) (by omega) hmid1
          (fun a b hab hb hfa => hmono a b hab (by omega) hfa)
        simp only [sortSearchAux, if_pos hlt, hf, if_true]
        obtain ⟨h1, h2, h3, h4⟩ := this
        refine ⟨h1, by omega, h3, fun hr => ?_⟩
        rcases Nat.lt_or_ge (sortSearchAux f n i ((i + j) / 2)) ((i + j) / 2) with hc | hc
        · exact h4 hc
        · have : sortSearchAux f n i ((i + j) / 2) = (i + j) / 2 := by omega
          rw [this]
          exact hf
      · have hf' : f ((i + j) / 2) = false := by
          cases hfm : f ((i + j) / 2)
          · rfl
          · exact absurd hfm hf
        have := ih ((i + j) / 2 + 1) j (by omega) (by omega) hmono
        simp only [sortSearchAux, if_pos hlt, hf', Bool.false_eq_true, if_false]
        obtain ⟨h1, h2, h3, h4⟩ := this
        refine ⟨by omega, h2, fun k hk1 hk2 => ?_, h4⟩
        rcases Nat.lt_or_ge k ((i + j) / 2 + 1) with hc | hc
        · cases hfk : f k
          · rfl
          · exact absurd (hmono k ((i + j) / 2) (by omega) hmid2 hfk) (by simp [hf'])
        · exact h3 k hc hk2
    · have : i = j := by omega
      subst this
      simp only [sortSearchAux, if_neg hlt]
      exact ⟨le_refl i, le_refl i, fun k hk1 hk2 => by omega, fun h => by omega⟩

theorem filter_head_of_first {p : Nat → Bool} :
    ∀ (l : List Nat) (r : Nat), r < l.length →
      (∀ k, k < r → p (l.getD k 0) = false) → p (l.getD r 0) = true →
      (l.filter p).headD 0 = l.getD r 0 := by
  intro l
  induction l with
  | nil => intro r hr; simp at hr
  | cons a t ih =>
    intro r hr hbefore hp
    cases r with
    | zero =>
      simp only [List.getD] at hp ⊢
      simp at hp
      simp [List.filter_cons, hp]
    | succ r' =>
      have ha : p a = false := by
        have := hbefore 0 (by omega)
        simpa [List.getD] using this
      simp only [List.filter_cons, ha, Bool.false_eq_true, if_false]
      have := ih r' (by simpa using hr)
        (fun k hk => by simpa [List.getD] using hbefore (k + 1) (by omega))
        (by simpa [List.getD] using hp)
      simpa [List.getD] using this

theorem filter_nil_of_none {p : Nat → Bool} :
    ∀ (l : List Nat), (∀ k, k < l.length → p (l.getD k 0) = false) →
      l.filter p = [] := by
  intro l
  induction l with
  | nil => intro _; rfl
  | cons a t ih =>
    intro hall
    have ha : p a = false := by simpa [List.getD] using hall 0 (by simp)
    simp only [List.filter_cons, ha, Bool.false_eq_true, if_false]
    exact ih fun k hk => by simpa [List.getD] using hall (k + 1) (by simpa using hk)

theorem sorted_getD_mono {l : List Nat} (hs : List.Sorted (· ≤ ·) l) {a b : Nat}
    (hab : a ≤ b) (hb : b < l.length) : l.getD a 0 ≤ l.getD b 0 := by
  have ha : a < l.length := Nat.lt_of_le_of_lt hab hb
  rw [List.getD_eq_getElem _ _ ha, List.getD_eq_getElem _ _ hb]
  rcases Nat.eq_or_lt_of_le hab with heq | hlt
  · subst heq; exact le_refl _
  · have := @List.Sorted.rel_get_of_lt _ _ _ hs ⟨a, ha⟩ ⟨b, hb⟩ hlt
    simpa using this

theorem getD_zero_headD (l : List Nat) (d : Nat) : l.getD 0 d = l.headD d := by
  cases l <;> rfl

theorem consGet_specSelect (m : ConsMap) (key : String)
    (hs : List.Sorted (· ≤ ·) m.keys) (hne : m.keys ≠ []) :
    consGet m key = hashLookup m.hashMap (specSelect m.keys (m.hash key)) := by
  have hn : 0 < m.keys.length := List.length_pos.mpr hne
  have hmono : ∀ a b, a ≤ b → b < m.keys.length →
      (fun i => decide (m.hash key ≤ m.keys.getD i 0)) a = true →
      (fun i => decide (m.hash key ≤ m.keys.getD i 0)) b = true := by
    intro a b hab hb hfa
    simp only [decide_eq_true_eq] at hfa ⊢
    exact le_trans hfa (sorted_getD_mono hs hab hb)
  obtain ⟨h0, h1, h2, h3⟩ := sortSearchAux_spec
    (fun i => decide (m.hash key ≤ m.keys.getD i 0))
    m.keys.length 0 m.keys.length (by omega) (by omega) hmono
  simp only [consGet, if_neg (by omega : ¬ m.keys.length = 0)]
  suffices hsel : m.keys.getD
      (sortSearch m.keys.length (fun i => decide (m.hash key ≤ m.keys.getD i 0)) %
        m.keys.length) 0 = specSelect m.keys (m.hash key) by
    rw [hsel]
  rcases Nat.lt_or_ge
    (sortSearchAux (fun i => decide (m.hash key ≤ m.keys.getD i 0))
      m.keys.length 0 m.keys.length) m.keys.length with hlt | hge
  · have hmod := Nat.mod_eq_of_lt hlt
    have hfr := h3 hlt
    have hbefore : ∀ k, k < sortSearchAux
        (fun i => decide (m.hash key ≤ m.keys.getD i 0)) m.keys.length 0
        m.keys.length →
        (fun x => decide (m.hash key ≤ x)) (m.keys.getD k 0) = false :=
      fun k hk => h2 k (Nat.zero_le k) hk
    have hhead := @filter_head_of_first (fun x => decide (m.hash key ≤ x)) m.keys _
      hlt hbefore hfr
    cases hflt : m.keys.filter (fun x => decide (m.hash key ≤ x)) with
    | nil =>
      exfalso
      have hmem : m.keys.getD (sortSearchAux
          (fun i => decide (m.hash key ≤ m.keys.getD i 0)) m.keys.length 0
          m.keys.length) 0 ∈ m.keys := by
        rw [List.getD_eq_getElem _ _ hlt]
        exact List.getElem_mem _
      have : m.keys.getD (sortSearchAux
          (fun i => decide (m.hash key ≤ m.keys.getD i 0)) m.keys.length 0
          m.keys.length) 0 ∈ m.keys.filter (fun x => decide (m.hash key ≤ x)) :=
        List.mem_filter.mpr ⟨hmem, hfr⟩
      rw [hflt] at this
      exact absurd this (List.not_mem_nil _)
    | cons x t =>
      rw [hflt] at hhead
      simp only [List.headD] at hhead
      simp only [specSelect, hflt, sortSearch, hmod, hhead]
  · have hrn : sortSearchAux (fun i => decide (m.hash key ≤ m.keys.getD i 0))
        m.keys.length 0 m.keys.length = m.keys.length := le_antisymm h1 hge
    have hall : ∀ k, k < m.keys.length →
        (fun x => decide (m.hash key ≤ x)) (m.keys.getD k 0) = false :=
      fun k hk => h2 k (Nat.zero_le k) (by omega)
    have hfil := @filter_nil_of_none (fun x => decide (m.hash key ≤ x)) m.keys hall
    simp only [specSelect, hfil, sortSearch, hrn, Nat.mod_self]
    exact getD_zero_headD m.keys 0

theorem consAdd_sorted (m : ConsMap) (ks : List String) :
    List.Sorted (· ≤ ·) (consAdd m ks).keys := by
  simp only [consAdd]
  exact List.sorted_insertionSort _ _

/-- Counterexample to claim C5 as stated: registering the single peer whose name
is the empty string puts a virtual node on the ring, yet `Get` then returns the
empty string — so "returns the empty string if and only if no virtual nodes are
registered" fails in the "only if" direction at this concrete input. -/
theorem cons_get_empty_not_iff :
    consGet (consAdd (consNew 1 strBytes) [""]) "xy" = "" ∧
      (consAdd (consNew 1 strBytes) [""]).keys ≠ [] := by
  decide

/-- Claim C5 (amended): for every ring state whose virtual-node hash sequence is
sorted (every state built by `Add` is, see `consAdd_sorted`), `Get(key)` returns
the empty string when no virtual nodes are registered, and otherwise returns the
registered owner of the first element of the sorted virtual-node hash sequence
that is ≥ hash(key), wrapping around to the first element when none is ≥; that
owner is itself the empty string only when the owning peer was registered under
the empty name, so the claimed "if and only if" holds only for rings without an
empty-named peer. -/
theorem cons_get_owner (m : ConsMap) (key : String)
    (hs : List.Sorted (· ≤ ·) m.keys) :
    (m.keys = [] → consGet m key = "") ∧
    (m.keys ≠ [] → consGet m key =
      hashLookup m.hashMap (specSelect m.keys (m.hash key))) := by
  constructor
  · intro h
    simp [consGet, h]
  · intro h
    exact consGet_specSelect m key hs h

/-- The specification's worked example: three peers whose single virtual nodes
hash to 2, 4 and 6, and a key hashing to 3. -/
def exHash : String → Nat :=
  fun s => if s = "0A" then 2 else if s = "0B" then 4 else if s = "0C" then 6 else 3

/-- Witness for C5 (amended) on the specification's example ring, where the key
hashing to 3 resolves to the peer owning virtual node 4. -/
theorem cons_get_owner_w :
    ((consAdd (consNew 1 exHash) ["A", "B", "C"]).keys = [] →
        consGet (consAdd (consNew 1 exHash) ["A", "B", "C"]) "k" = "") ∧
    ((consAdd (consNew 1 exHash) ["A", "B", "C"]).keys ≠ [] →
        consGet (consAdd (consNew 1 exHash) ["A", "B", "C"]) "k" =
          hashLookup (consAdd (consNew 1 exHash) ["A", "B", "C"]).hashMap
            (specSelect (consAdd (consNew 1 exHash) ["A", "B", "C"]).keys
              ((consAdd (consNew 1 exHash) ["A", "B", "C"]).hash "k"))) :=
  cons_get_owner (consAdd (consNew 1 exHash) ["A", "B", "C"]) "k"
    (consAdd_sorted (consNew 1 exHash) ["A", "B", "C"])

/-! ## HTTP peer pool (`HTTPPool`, client `httpGetter`)

The mutex is dropped (the model is sequential); `peers` is `nil` in Go until
`Set` has been called and `PickPeer` would dereference that nil pointer, so pool
states are modelled from `Set` onward. -/

structure httpGetter where
  baseURL : String
deriving Repr, DecidableEq

structure HTTPPool where
  self : String
  basePath : String
  peers : ConsMap
  httpGetters : List (String × httpGetter)

def defaultBasePath : String := "/_geecache/"

def defaultReplicas : Nat := 50

/-- The loop in `HTTPPool.Set` building one client per peer address, each bound
to `peer + basePath`.  Go writes the bindings into a map in slice order; since
the bound value depends only on the address, first-match lookup over this list
realises the same map even for duplicate addresses. -/
def buildGetters : List String → String → List (String × httpGetter)
  | [], _ => []
  | peer :: rest, basePath => (peer, ⟨peer ++ basePath⟩) :: buildGetters rest basePath

/-- Go map read `p.httpGetters[peer]` (absent: nil). -/
def lookupGetter : List (String × httpGetter) → String → Option httpGetter
  | [], _ => none
  | (k, g) :: rest, peer => if k = peer then some g else lookupGetter rest peer

/-- `HTTPPool.Set` with an explicit ring hash (Go passes `nil`, selecting the
standard library's crc32): rebuild the ring with `defaultReplicas` virtual nodes
per peer and the client map together. -/
def poolSet (self basePath : String) (hash : String → Nat)
    (peerList : List String) : HTTPPool :=
  ⟨self, basePath, consAdd (consNew defaultReplicas hash) peerList,
    buildGetters peerList basePath⟩

/-- `HTTPPool.PickPeer`: consult the ring; an owner that is nonempty and differs
from the pool's own address yields that peer's client and `true`; otherwise
nothing and `false`. -/
def pickPeer (p : HTTPPool) (key : String) : Option httpGetter × Bool :=
  let peer := consGet p.peers key
  if peer ≠ "" ∧ peer ≠ p.self then (lookupGetter p.httpGetters peer, true)
  else (none, false)

theorem hashInsert_mem {hm : List (Nat × String)} {h : Nat} {peer : String}
    {pr : Nat × String} (hpr : pr ∈ hashInsert hm h peer) :
    pr = (h, peer) ∨ pr ∈ hm := by
  induction hm with
  | nil => simpa [hashInsert] using hpr
  | cons e rest ih =>
    obtain ⟨h', p'⟩ := e
    by_cases he : h' = h
    · simp only [hashInsert, if_pos he] at hpr
      rcases List.mem_cons.mp hpr with h1 | h1
      · exact Or.inl h1
      · exact Or.inr (List.mem_cons_of_mem _ h1)
    · simp only [hashInsert, if_neg he] at hpr
      rcases List.mem_cons.mp hpr with h1 | h1
      · exact Or.inr (h1 ▸ List.mem_cons_self _ _)
      · rcases ih h1 with h2 | h2
        · exact Or.inl h2
        · exact Or.inr (List.mem_cons_of_mem _ h2)

theorem addOne_hashMap_mem {m : ConsMap} {key : String} {pr : Nat × String}
    (hpr : pr ∈ (addOne m key).hashMap) : pr.2 = key ∨ pr ∈ m.hashMap := by
  rw [addOne] at hpr
  generalize List.range m.replicas = idxs at hpr
  induction idxs generalizing m with
  | nil => exact Or.inr hpr
  | cons i rest ih =>
    simp only [List.foldl_cons] at hpr
    rcases ih hpr with h1 | h1
    · exact Or.inl h1
    · rcases hashInsert_mem h1 with h2 | h2
      · exact Or.inl (by rw [h2])
      · exact Or.inr h2

theorem foldl_addOne_hashMap_mem {pr : Nat × String} :
    ∀ (ks : List String) (m : ConsMap), pr ∈ (ks.foldl addOne m).hashMap →
      pr.2 ∈ ks ∨ pr ∈ m.hashMap := by
  intro ks
  induction ks with
  | nil => intro m hpr; exact Or.inr hpr
  | cons k rest ih =>
    intro m hpr
    simp only [List.foldl_cons] at hpr
    rcases ih (addOne m k) hpr with h1 | h1
    · exact Or.inl (List.mem_cons_of_mem _ h1)
    · rcases addOne_hashMap_mem h1 with h2 | h2
      · exact Or.inl (h2 ▸ List.mem_cons_self _ _)
      · exact Or.inr h2

theorem hashLookup_mem {hm : List (Nat × String)} {h : Nat}
    (hne : hashLookup hm h ≠ "") : (h, hashLookup hm h) ∈ hm := by
  induction hm with
  | nil => exact absurd rfl hne
  | cons e rest ih =>
    obtain ⟨h', p'⟩ := e
    by_cases he : h' = h
    · simp only [hashLookup, if_pos he] at hne ⊢
      exact he ▸ List.mem_cons_self _ _
    · simp only [hashLookup, if_neg he] at hne ⊢
      exact List.mem_cons_of_mem _ (ih hne)

theorem consGet_cases (m : ConsMap) (key : String) :
    consGet m key = "" ∨ ∃ x, consGet m key = hashLookup m.hashMap x := by
  by_cases hk : m.keys.length = 0
  · left
    simp [consGet, hk]
  · right
    refine ⟨m.keys.getD
      (sortSearch m.keys.length (fun i => decide (m.hash key ≤ m.keys.getD i 0)) %
        m.keys.length) 0, ?_⟩
    simp [consGet, hk]

theorem consGet_mem_peerList {hash : String → Nat} {r : Nat}
    {peerList : List String} {key : String}
    (hne : consGet (consAdd (consNew r hash) peerList) key ≠ "") :
    consGet (consAdd (consNew r hash) peerList) key ∈ peerList := by
  rcases consGet_cases (consAdd (consNew r hash) peerList) key with h0 | ⟨x, hx⟩
  · exact absurd h0 hne
  · rw [hx] at hne ⊢
    have hmem := hashLookup_mem hne
    have hvals := foldl_addOne_hashMap_mem peerList (consNew r hash)
      (by simpa [consAdd] using hmem)
    rcases hvals with h1 | h1
    · exact h1
    · simp [consNew] at h1

theorem lookupGetter_buildGetters {peerList : List String} {peer : String}
    (hmem : peer ∈ peerList) (basePath : String) :
    lookupGetter (buildGetters peerList basePath) peer = some ⟨peer ++ basePath⟩ := by
  induction peerList with
  | nil => simp at hmem
  | cons q rest ih =>
    by_cases hq : q = peer
    · subst hq
      simp [buildGetters, lookupGetter]
    · rcases List.mem_cons.mp hmem with h1 | h1
      · exact absurd h1.symm hq
      · simp only [buildGetters, lookupGetter, if_neg hq]
        exact ih h1

/-- Claim C8: on every pool state built by `Set` and for every key, `PickPeer`
returns (the owning peer's client, true) exactly when the ring's owner for the
key is a non-empty address different from the pool's own address, and
(nothing, false) otherwise — which covers both an empty ring (owner "") and the
local node owning the key. -/
theorem pool_pick_peer (self basePath : String) (hash : String → Nat)
    (peerList : List String) (key : String) :
    pickPeer (poolSet self basePath hash peerList) key =
      (if consGet (consAdd (consNew defaultReplicas hash) peerList) key ≠ "" ∧
          consGet (consAdd (consNew defaultReplicas hash) peerList) key ≠ self
        then (some ⟨consGet (consAdd (consNew defaultReplicas hash) peerList) key
                ++ basePath⟩, true)
        else (none, false)) := by
  simp only [pickPeer, poolSet]
  by_cases hc : consGet (consAdd (consNew defaultReplicas hash) peerList) key ≠ "" ∧
      consGet (consAdd (consNew defaultReplicas hash) peerList) key ≠ self
  · rw [if_pos hc, if_pos hc]
    rw [lookupGetter_buildGetters (consGet_mem_peerList hc.1) basePath]
  · rw [if_neg hc, if_neg hc]

/-! ## Peer request paths: client construction and server parsing

`httpGetter.Get` builds the request URL as `baseURL + QueryEscape(group) +
QueryEscape(key)` (the format string concatenates the three directly), with
`baseURL = peerAddress + basePath`; the path component of that URL is modelled
here.  `HTTPPool.ServeHTTP` panics when the decoded request path does not start
with the pool's base path, then splits the remainder at the first `/` into at
most two segments and answers 400 when there are not exactly two.  Paths are
modelled as `List Char`; Go indexes bytes, which coincides with characters on
ASCII data.  Go's `net/url` escaping walks the string byte by byte; a
non-ASCII character's UTF-8 bytes are all ≥ 0x80 and all get percent-encoded, so
the character-wise model below produces the same text. -/

/-- Upper-case hex digit of a nibble (Go's `upperhex` table). -/
def hexUp (n : Nat) : Char :=
  if n < 10 then Char.ofNat (48 + n) else Char.ofNat (55 + n)

/-- UTF-8 bytes of a code point. -/
def utf8Bytes (n : Nat) : List Nat :=
  if n < 128 then [n]
  else if n < 2048 then [192 + n / 64, 128 + n % 64]
  else if n < 65536 then [224 + n / 4096, 128 + n / 64 % 64, 128 + n % 64]
  else [240 + n / 262144, 128 + n / 4096 % 64, 128 + n / 64 % 64, 128 + n % 64]

/-- Characters Go's query escaping leaves untouched: ASCII alphanumerics and
`-_.~`. -/
def isUnreserved (c : Char) : Bool :=
  ('a' ≤ c && c ≤ 'z') || ('A' ≤ c && c ≤ 'Z') || ('0' ≤ c && c ≤ '9') ||
    c = '-' || c = '_' || c = '.' || c = '~'

/-- `url.QueryEscape` on one character: unreserved characters stay, a space
becomes `+`, anything else has each UTF-8 byte percent-encoded. -/
def qEscapeChar (c : Char) : List Char :=
  if isUnreserved c then [c]
  else if c = ' ' then ['+']
  else ((utf8Bytes c.toNat).map (fun b => ['%', hexUp (b / 16), hexUp (b % 16)])).flatten

/-- `url.QueryEscape`. -/
def qEscape (s : List Char) : List Char := (s.map qEscapeChar).flatten

/-- The path component of the URL built by `httpGetter.Get` for a fetch of
(`group`, `key`): the base path followed directly by the escaped group and the
escaped key. -/
def clientPath (basePath group key : String) : List Char :=
  basePath.data ++ qEscape group.data ++ qEscape key.data

/-- Value of one hex digit. -/
def hexVal (c : Char) : Option Nat :=
  if '0' ≤ c ∧ c ≤ '9' then some (c.toNat - 48)
  else if 'a' ≤ c ∧ c ≤ 'f' then some (c.toNat - 87)
  else if 'A' ≤ c ∧ c ≤ 'F' then some (c.toNat - 55)
  else none

/-- Percent-decoding as `net/url` applies it to the path component before the
handler sees `r.URL.Path`: `%XX` becomes the byte `XX`; `+` is untouched in a
path.  (Go rejects a malformed escape while parsing the URL; such paths never
arise from the client's escaping and are left in place here.) -/
def pathDecode : List Char → List Char
  | [] => []
  | '%' :: c1 :: c2 :: rest =>
    match hexVal c1, hexVal c2 with
    | some h1, some h2 => Char.ofNat (16 * h1 + h2) :: pathDecode rest
    | _, _ => '%' :: pathDecode (c1 :: c2 :: rest)
  | c :: rest => c :: pathDecode rest

/-- Split off everything before the first `/`; `none` when there is no `/`. -/
def breakSlash : List Char → List Char × Option (List Char)
  | [] => ([], none)
  | '/' :: rest => ([], some rest)
  | c :: rest =>
    let p := breakSlash rest
    (c :: p.1, p.2)

/-- `strings.SplitN(s, "/", 2)`. -/
def splitN2 (l : List Char) : List (List Char) :=
  match breakSlash l with
  | (a, none) => [a]
  | (a, some r) => [a, r]

/-- Outcome of `HTTPPool.ServeHTTP`'s request-path handling. -/
inductive ServeOutcome where
  | panicked
  | badRequest
  | parsed (groupName key : String)
deriving Repr, DecidableEq

/-- The path handling of `HTTPPool.ServeHTTP`: panic unless the path starts with
the base path, then split the remainder at the first `/` into two segments
(group name and key), answering 400 bad request otherwise. -/
def serveParse (basePath : String) (path : List Char) : ServeOutcome :=
  if basePath.data.isPrefixOf path then
    match splitN2 (path.drop basePath.data.length) with
    | [g, k] => ServeOutcome.parsed ⟨g⟩ ⟨k⟩
    | _ => ServeOutcome.badRequest
  else ServeOutcome.panicked

/-- Claim C1 fails on the code: `httpGetter.Get`'s format string omits the `/`
between the escaped namespace and the escaped key, although its own comment and
the server both use the `{prefix}/{namespace}/{key}` format.  For namespace
`scores` and key `Tom` the client requests path `/_geecache/scoresTom`; the
server's two-segment split then finds a single segment and answers 400 bad
request, instead of parsing back (`scores`, `Tom`). -/
theorem client_server_path_mismatch :
    pathDecode (clientPath defaultBasePath "scores" "Tom") =
      "/_geecache/scoresTom".data ∧
    serveParse defaultBasePath
        (pathDecode (clientPath defaultBasePath "scores" "Tom")) =
      ServeOutcome.badRequest ∧
    serveParse defaultBasePath
        (pathDecode (clientPath defaultBasePath "scores" "Tom")) ≠
      ServeOutcome.parsed "scores" "Tom" := by
  decide

/-! ## ByteView, cache shard and Group orchestrator

`ByteView` wraps an immutable byte slice.  The shard (`cache` in the source) adds
lazy initialisation around the eviction cache; its mutex is dropped in this
sequential model.  `Group.load` invokes its body through `singleflight.Do`; for a
single sequential call `Do` runs the producer synchronously (spec §4.3, source
not in the snapshot), so `load` models the producer body directly.  External
interactions are recorded in an event trace so that "the callback ran exactly
once" is expressible. -/

structure ByteView where
  b : List Nat
deriving Repr, DecidableEq

/-- `ByteView.Len`. -/
def bvLen (v : ByteView) : Nat := v.b.length

/-- `cloneBytes` copies the slice; the copy holds the same bytes, which is all a
pure model can observe. -/
def cloneBytes (b : List Nat) : List Nat := b

/-- The cache shard (`cache` struct): lazily initialised eviction cache plus the
configured byte budget. -/
structure cache where
  lru : Option (LruCache ByteView)
  cacheBytes : Int
deriving Repr, DecidableEq

/-- `cache.add`: initialise the eviction cache on first use, then `Add`. -/
def cacheAdd (c : cache) (key : String) (value : ByteView) : cache :=
  match c.lru with
  | none => { c with lru := some (lruAdd bvLen (lruNew ByteView c.cacheBytes) key value) }
  | some l => { c with lru := some (lruAdd bvLen l key value) }

/-- `cache.get`: a never-written shard misses without initialising. -/
def cacheGet (c : cache) (key : String) : Option ByteView × cache :=
  match c.lru with
  | none => (none, c)
  | some l =>
    let p := lruGet l key
    (p.1, { c with lru := some p.2 })

/-- A peer client (`PeerGetter` interface): `Get(group, key)` yields bytes or an
error; the network's behaviour is part of the modelled environment. -/
def PeerG : Type := String → String → Except String (List Nat)

/-- A peer picker (`PeerPicker` interface): `PickPeer(key)` yields a client
exactly when a remote peer owns the key. -/
def PeerPicker : Type := String → Option PeerG

/-- A `Group`: namespace name, load callback, cache shard, optional peer pool.
The `loader *singleflight.Group` field carries no state between separate
sequential calls and is represented by `load` running the producer body
directly. -/
structure GeeGroup where
  name : String
  getter : String → Except String (List Nat)
  mainCache : cache
  peers : Option PeerPicker

/-- External interactions of one `Get`, in order. -/
inductive GEvent where
  | localGet (key : String)
  | pickPeerEv (key : String)
  | fetchPeer (group key : String)
  | loadCallback (key : String)
  | populate (key : String)
deriving Repr, DecidableEq

/-- `Group.getLocally`: run the callback; on success clone the bytes, store them
into the shard and return them; on error propagate the error unchanged. -/
def getLocally (g : GeeGroup) (key : String) :
    Except String ByteView × GeeGroup × List GEvent :=
  match g.getter key with
  | .error e => (.error e, g, [.loadCallback key])
  | .ok bs =>
    let value : ByteView := ⟨cloneBytes bs⟩
    (.ok value, { g with mainCache := cacheAdd g.mainCache key value },
      [.loadCallback key, .populate key])

/-- `Group.getFromPeer`: ask the peer client; its bytes are wrapped without
cloning. -/
def getFromPeer (g : GeeGroup) (peer : PeerG) (key : String) :
    Except String ByteView :=
  match peer g.name key with
  | .error e => .error e
  | .ok bs => .ok ⟨bs⟩

/-- The body of `Group.load` (the producer handed to `singleflight.Do`, run
synchronously): try the peer path when a pool is attached and a remote peer is
picked; on any peer failure, or no peer, fall back to `getLocally`. -/
def load (g : GeeGroup) (key : String) :
    Except String ByteView × GeeGroup × List GEvent :=
  match g.peers with
  | none => getLocally g key
  | some pick =>
    match pick key with
    | none =>
      let p := getLocally g key
      (p.1, p.2.1, .pickPeerEv key :: p.2.2)
    | some peer =>
      match getFromPeer g peer key with
      | .ok v => (.ok v, g, [.pickPeerEv key, .fetchPeer g.name key])
      | .error _ =>
        let p := getLocally g key
        (p.1, p.2.1, .pickPeerEv key :: .fetchPeer g.name key :: p.2.2)

/-- `Group.Get`: reject the empty key, then local lookup, then `load`. -/
def groupGet (g : GeeGroup) (key : String) :
    Except String ByteView × GeeGroup × List GEvent :=
  if key = "" then (.error "key is required", g, [])
  else
    match cacheGet g.mainCache key with
    | (some v, mc') => (.ok v, { g with mainCache := mc' }, [.localGet key])
    | (none, mc') =>
      let p := load { g with mainCache := mc' } key
      (p.1, p.2.1, .localGet key :: p.2.2)

/-- Number of load-callback invocations recorded in a trace. -/
def loadCallbackCount (evs : List GEvent) : Nat :=
  evs.countP (fun ev => match ev with | .loadCallback _ => true | _ => false)

/-- A shard read that misses leaves the shard untouched. -/
theorem cacheGet_miss_state {c : cache} {key : String}
    (h : (cacheGet c key).1 = none) : (cacheGet c key).2 = c := by
  obtain ⟨lru?, cb⟩ := c
  cases lru? with
  | none => rfl
  | some l =>
    simp only [cacheGet] at h ⊢
    rcases hf : findVal l.ll key with _ | v
    · simp only [lruGet, hf]
    · simp only [lruGet, hf] at h
      exact absurd h (by simp)

/-- Claim C9: for every Group — any cache contents, any callback, peer pool
attached or not — `Get("")` returns the input error, leaves the group unchanged
and performs no external interaction at all: no shard lookup, no peer
consultation, no callback (empty event trace). -/
theorem group_get_empty_key (g : GeeGroup) :
    groupGet g "" = (Except.error "key is required", g, []) := by
  simp [groupGet]

theorem groupGet_miss (g : GeeGroup) (key : String) (hkey : ¬ key = "")
    (hmiss : (cacheGet g.mainCache key).1 = none) :
    groupGet g key =
      ((load g key).1, (load g key).2.1,
        GEvent.localGet key :: (load g key).2.2) := by
  have hcg : cacheGet g.mainCache key = (none, g.mainCache) := by
    have h2 := cacheGet_miss_state hmiss
    rcases hq : cacheGet g.mainCache key with ⟨f, s⟩
    rw [hq] at hmiss h2
    simp only at hmiss h2
    rw [hmiss, h2]
  have heta : ({ g with mainCache := g.mainCache } : GeeGroup) = g := rfl
  simp only [groupGet, if_neg hkey, hcg, heta]

/-- Claim C6: with a peer pool attached, on a key missing from the local shard
whose picked remote peer's fetch succeeds, `Get` returns the fetched value and
the local shard is left exactly as it was — no entry added or promoted (the trace
shows only the miss, the pick and the fetch; no populate event). -/
theorem group_peer_success_frame (g : GeeGroup) (key : String) (pick : PeerPicker)
    (peer : PeerG) (bs : List Nat) (hkey : ¬ key = "")
    (hmiss : (cacheGet g.mainCache key).1 = none)
    (hpeers : g.peers = some pick) (hpick : pick key = some peer)
    (hfetch : peer g.name key = Except.ok bs) :
    groupGet g key = (Except.ok ⟨bs⟩, g,
      [GEvent.localGet key, GEvent.pickPeerEv key, GEvent.fetchPeer g.name key]) := by
  rw [groupGet_miss g key hkey hmiss]
  simp only [load, hpeers, hpick, getFromPeer, hfetch]

/-- A concrete group for the C6 witness: empty shard, a peer that owns every key
and always answers `[5]`, and a callback that would fail. -/
def peerW : PeerG := fun _ _ => Except.ok [5]

def pickW : PeerPicker := fun _ => some peerW

def gW6 : GeeGroup :=
  ⟨"scores", fun _ => Except.error "miss", ⟨none, 100⟩, some pickW⟩

/-- Witness for C6 on `gW6` and key `Tom`. -/
theorem group_peer_success_frame_w :
    groupGet gW6 "Tom" = (Except.ok ⟨[5]⟩, gW6,
      [GEvent.localGet "Tom", GEvent.pickPeerEv "Tom",
        GEvent.fetchPeer "scores" "Tom"]) :=
  group_peer_success_frame gW6 "Tom" pickW peerW [5] (by decide) rfl rfl rfl rfl

/-- The peer path fails to produce a value: no pool, no peer picked, or the
picked peer's fetch errors. -/
def peerFails (g : GeeGroup) (key : String) : Bool :=
  match g.peers with
  | none => true
  | some pick =>
    match pick key with
    | none => true
    | some peer =>
      match peer g.name key with
      | .error _ => true
      | .ok _ => false

theorem load_fallback (g : GeeGroup) (key : String)
    (hfail : peerFails g key = true) :
    ∃ pre : List GEvent, loadCallbackCount pre = 0 ∧
      load g key = ((getLocally g key).1, (getLocally g key).2.1,
        pre ++ (getLocally g key).2.2) := by
  rcases hp : g.peers with _ | pick
  · refine ⟨[], rfl, ?_⟩
    simp [load, hp, Prod.mk.eta]
  · rcases hpk : pick key with _ | peer
    · refine ⟨[GEvent.pickPeerEv key], rfl, ?_⟩
      simp [load, hp, hpk]
    · cases hfr : peer g.name key with
      | ok bs =>
        exfalso
        simp [peerFails, hp, hpk, hfr] at hfail
      | error e =>
        refine ⟨[GEvent.pickPeerEv key, GEvent.fetchPeer g.name key], rfl, ?_⟩
        simp [load, hp, hpk, getFromPeer, hfr]

/-- Claim C4: on a non-empty key missing from the local shard, whenever the peer
path yields nothing (no pool, no peer picked, or fetch failed), `Get` invokes the
load callback exactly once; a callback success is cloned, stored into the local
shard and returned, while a callback error is propagated verbatim and leaves the
shard unpopulated. -/
theorem group_fallback_local (g : GeeGroup) (key : String) (hkey : ¬ key = "")
    (hmiss : (cacheGet g.mainCache key).1 = none)
    (hfail : peerFails g key = true) :
    loadCallbackCount (groupGet g key).2.2 = 1 ∧
    (∀ bs, g.getter key = Except.ok bs →
      (groupGet g key).1 = Except.ok ⟨cloneBytes bs⟩ ∧
      (groupGet g key).2.1 =
        { g with mainCache := cacheAdd g.mainCache key ⟨cloneBytes bs⟩ }) ∧
    (∀ e, g.getter key = Except.error e →
      (groupGet g key).1 = Except.error e ∧ (groupGet g key).2.1 = g) := by
  rw [groupGet_miss g key hkey hmiss]
  obtain ⟨pre, hpre, hload⟩ := load_fallback g key hfail
  rw [hload]
  rcases hg : g.getter key with e | bs
  · simp only [getLocally, hg]
    refine ⟨?_, ?_, ?_⟩
    · simp only [loadCallbackCount] at hpre ⊢
      simp [List.countP_cons, List.countP_append, hpre]
    · intro bs hbs
      simp at hbs
    · intro e' he'
      injection he' with h
      subst h
      exact ⟨rfl, trivial⟩
  · simp only [getLocally, hg]
    refine ⟨?_, ?_, ?_⟩
    · simp only [loadCallbackCount] at hpre ⊢
      simp [List.countP_cons, List.countP_append, hpre]
    · intro bs' hbs'
      injection hbs' with h
      subst h
      exact ⟨rfl, rfl⟩
    · intro e he
      simp at he

/-- A concrete group for the C4 witness: empty shard, no peer pool, the demo
callback that knows key `Jack`. -/
def gW4 : GeeGroup :=
  ⟨"scores",
    fun k => if k = "Jack" then Except.ok [53, 56, 57]
      else Except.error "not exist",
    ⟨none, 2048⟩, none⟩

/-- Witness for C4 on `gW4` and key `Jack`. -/
theorem group_fallback_local_w :
    loadCallbackCount (groupGet gW4 "Jack").2.2 = 1 ∧
    (∀ bs, gW4.getter "Jack" = Except.ok bs →
      (groupGet gW4 "Jack").1 = Except.ok ⟨cloneBytes bs⟩ ∧
      (groupGet gW4 "Jack").2.1 =
        { gW4 with mainCache := cacheAdd gW4.mainCache "Jack" ⟨cloneBytes bs⟩ }) ∧
    (∀ e, gW4.getter "Jack" = Except.error e →
      (groupGet gW4 "Jack").1 = Except.error e ∧
        (groupGet gW4 "Jack").2.1 = gW4) :=
  group_fallback_local gW4 "Jack" (by decide) rfl rfl
